import Mathlib

/-!
Shallow embedding of `src/KeyedList.ts` (keyed-list library).

The TypeScript value `IdKeyedList<T>` is `{ keys: string[], elements: { [id: string]: T } }`.
JavaScript objects are modelled as association lists `List (String × β)` with the
usual object semantics: property read returns the value of the (unique) entry for
the key, property write replaces the entry in place when present and appends it
otherwise, `Object.values` enumerates the stored values.  A JS object never holds
two entries for the same key, so association lists with duplicate first components
are junk states; well-formedness (`WFE`) is stated explicitly where a claim needs it.

Elements are records with a mandatory string `id` field; the remaining payload
fields are modelled by two representative fields `name` and `age`, both optional so
that the same type also represents the partial patch objects (`Partial<T> & {id}`)
accepted by `update` and the result of merging them.  A JS property that is absent
is `none`; `{...curr}` copies are identities in this pure-value model (the heap
model at the end of the definitions section accounts for reference aliasing).
-/

namespace KeyedList

/-- An element (or partial patch) record: a mandatory string `id` plus two
representative optional payload fields. -/
structure PElem where
  id : String
  name : Option String
  age : Option Int
deriving DecidableEq

/-- A JS object with string keys and `β` values, as an association list. -/
abbrev JsObj (β : Type) := List (String × β)

/-- JS property read: `obj[k]`, `undefined` (`none`) when the key is absent. -/
def objGet {β : Type} (es : JsObj β) (k : String) : Option β :=
  (es.find? (fun p => p.fst == k)).map Prod.snd

/-- JS property write / spread-with-override `{...obj, [k]: v}`: replace the
entry for `k` in place when present, append it otherwise. -/
def objGrow {β : Type} : JsObj β → String → β → JsObj β
  | [], k, v => [(k, v)]
  | p :: es, k, v => if p.fst = k then (k, v) :: es else p :: objGrow es k v

/-- `Object.values(obj)`: the stored values in property order. -/
def objValues {β : Type} (es : JsObj β) : List β := es.map Prod.snd

/-- `IdKeyedList<T>`: the ordered key sequence plus the key→element object. -/
structure IdKeyedList where
  keys : List String
  elements : JsObj PElem
deriving DecidableEq

/-- The reducer of `fromArray` (also of `sort`'s rebuild):
`(prev, curr) => ({ ...prev, [curr.id]: { ...curr } })`. -/
def fromStep (prev : JsObj PElem) (curr : PElem) : JsObj PElem :=
  objGrow prev curr.id curr

/-- `fromArray(array)`: `keys = array.map(x => x.id)`;
`elements = array.reduce((prev, curr) => ({...prev, [curr.id]: {...curr}}), {})`. -/
def fromArray (array : List PElem) : IdKeyedList :=
  { keys := array.map (fun x => x.id)
    elements := array.foldl fromStep [] }

/-- `{...undefined}` produces an object with no fields at all; it is represented
by the record with empty `id` and absent payload fields.  It is only ever
reachable through `toArray` on a list with a dangling key. -/
def undefinedSpread : PElem := { id := "", name := none, age := none }

/-- `toArray(list)`: `list.keys.map(k => ({ ...list.elements[k] }))`. -/
def toArray (list : IdKeyedList) : List PElem :=
  list.keys.map (fun k => (objGet list.elements k).getD undefinedSpread)

/-- `getById(list, id)`: `list.elements[id]`. -/
def getById (list : IdKeyedList) (i : String) : Option PElem :=
  objGet list.elements i

/-- `getIds(list)`: `[...list.keys]` (the copy is an identity on pure values). -/
def getIds (list : IdKeyedList) : List String := list.keys

/-- `getByIds(list, ids)`: iterate `ids`, pushing `{...list.elements[id]}` for
each id whose lookup is truthy (an object is always truthy). -/
def getByIds (list : IdKeyedList) (ids : List String) : List PElem :=
  ids.foldl
    (fun newElements i =>
      match objGet list.elements i with
      | some x => newElements ++ [x]
      | none => newElements)
    []

/-- `getIdByIndex(list, index)`: `index >= 0 ? list.keys[index] : undefined`
(an out-of-range array read is `undefined`). -/
def getIdByIndex (list : IdKeyedList) (index : Int) : Option String :=
  if 0 ≤ index then list.keys.get? index.toNat else none

/-- `getByIndex(list, index)`: `idByIndex = list.keys[index]` (a negative or
out-of-range read gives `undefined`), then `idByIndex ? list.elements[idByIndex]
: undefined`; note the empty string key is falsy in JS. -/
def getByIndex (list : IdKeyedList) (index : Int) : Option PElem :=
  match (if 0 ≤ index then list.keys.get? index.toNat else none) with
  | some idByIndex => if idByIndex = "" then none else objGet list.elements idByIndex
  | none => none

/-- `Object.assign({}, base, patch)`: the patch's present fields win, its absent
fields fall back to the base; an absent base (`undefined`) contributes nothing. -/
def mergeAssign : Option PElem → PElem → PElem
  | none, p => p
  | some b, p =>
    { id := p.id
      name := match p.name with | some n => some n | none => b.name
      age := match p.age with | some a => some a | none => b.age }

/-- `update(list, elemProps)`: `{...list, elements: {...list.elements,
[elemProps.id]: Object.assign({}, list.elements[elemProps.id], elemProps)}}`. -/
def update (list : IdKeyedList) (elemProps : PElem) : IdKeyedList :=
  { list with
    elements := objGrow list.elements elemProps.id
      (mergeAssign (objGet list.elements elemProps.id) elemProps) }

/-- `getFirst(list)`: `list.elements[list.keys[0]]`; on an empty `keys` the JS
read `keys[0]` is `undefined`, which is coerced to the property key
`"undefined"`. -/
def getFirst (list : IdKeyedList) : Option PElem :=
  objGet list.elements ((list.keys.get? 0).getD "undefined")

/-- `getLast(list)`: `list.elements[list.keys[list.keys.length - 1]]`; on an
empty `keys` the read `keys[-1]` is `undefined`, coerced to the property key
`"undefined"`. -/
def getLast (list : IdKeyedList) : Option PElem :=
  objGet list.elements ((list.keys.get? (list.keys.length - 1)).getD "undefined")

/-- `append(list, x)`: `{keys: [...list.keys, x.id], elements: {...list.elements,
[x.id]: x}}` — the stored value is `x` itself, uncopied. -/
def append (list : IdKeyedList) (x : PElem) : IdKeyedList :=
  { keys := list.keys ++ [x.id]
    elements := objGrow list.elements x.id x }

/-- `insert(list, x)`: `{keys: [x.id, ...list.keys], elements: {...list.elements,
[x.id]: x}}`. -/
def insert (list : IdKeyedList) (x : PElem) : IdKeyedList :=
  { keys := x.id :: list.keys
    elements := objGrow list.elements x.id x }

/-- `getCount(list)`: `list.keys.length`. -/
def getCount (list : IdKeyedList) : Nat := list.keys.length

/-- The reducer of `removeById`:
`(prev, curr) => curr.id === id ? ({...prev}) : ({...prev, [curr.id]: curr})`. -/
def removeStep (i : String) (prev : JsObj PElem) (curr : PElem) : JsObj PElem :=
  if curr.id = i then prev else objGrow prev curr.id curr

/-- `removeById(list, id)`: `keys = list.keys.filter(xid => xid !== id)`;
`elements = Object.values(list.elements).reduce(..., {})`. -/
def removeById (list : IdKeyedList) (i : String) : IdKeyedList :=
  { keys := list.keys.filter (fun xid => !(xid == i))
    elements := (objValues list.elements).foldl (removeStep i) [] }

/-- `remove(list, x)`: `removeById(list, x.id)`. -/
def remove (list : IdKeyedList) (x : PElem) : IdKeyedList :=
  removeById list x.id

/-- `sort(list, compareWith)`: `sortedElems = toArray(list).sort(compareWith)`
(`Array.prototype.sort` is required to be stable, modelled by the stable
`List.mergeSort` with `le a b ↔ compareWith a b ≤ 0`); the keys are
`sortedElems.map(x => x.id)` and the elements object is rebuilt by
`prev[elem.id] = elem` over `sortedElems`. -/
def sort (list : IdKeyedList) (compareWith : PElem → PElem → Int) : IdKeyedList :=
  let sortedElems :=
    (toArray list).mergeSort (fun lval rval => decide (compareWith lval rval ≤ 0))
  { keys := sortedElems.map (fun x => x.id)
    elements := sortedElems.foldl fromStep [] }

/-! ### Well-formedness predicates and the order invariant -/

/-- The association list represents a genuine JS object: no duplicate keys. -/
def WFE {β : Type} (es : JsObj β) : Prop := (es.map Prod.fst).Nodup

/-- Every stored element sits under its own `id` — true of every object this
library builds, since entries are always written as `[x.id]: x`. -/
def KeyMatch (es : JsObj PElem) : Prop := ∀ p ∈ es, p.snd.id = p.fst

/-- The key set of `keys` coincides with the key set of `elements`. -/
def SameKeys (list : IdKeyedList) : Prop :=
  (∀ k ∈ list.keys, k ∈ list.elements.map Prod.fst) ∧
    (∀ k ∈ list.elements.map Prod.fst, k ∈ list.keys)

/-- Internal well-formedness of a library-produced list. -/
def Inv (list : IdKeyedList) : Prop :=
  list.keys.Nodup ∧ WFE list.elements ∧ KeyMatch list.elements ∧ SameKeys list

/-- Invariant I1 of the specification: `keys` has no duplicates and its members
are exactly the ids with a present `elements` entry (no dangling keys). -/
def I1 (list : IdKeyedList) : Prop :=
  list.keys.Nodup ∧ ∀ k, k ∈ list.keys ↔ objGet list.elements k ≠ none

instance {β : Type} (es : JsObj β) : Decidable (WFE es) := by
  unfold WFE; infer_instance

instance (es : JsObj PElem) : Decidable (KeyMatch es) := by
  unfold KeyMatch; infer_instance

instance (list : IdKeyedList) : Decidable (SameKeys list) := by
  unfold SameKeys; infer_instance

instance (list : IdKeyedList) : Decidable (Inv list) := by
  unfold Inv; infer_instance

/-! ### Sequences of mutation calls -/

/-- One mutation call of the family `append`/`insert`/`removeById`/`update`. -/
inductive Op where
  | app (x : PElem)
  | ins (x : PElem)
  | rem (k : String)
  | upd (p : PElem)
deriving DecidableEq

/-- Apply one mutation call. -/
def applyOp (list : IdKeyedList) : Op → IdKeyedList
  | .app x => append list x
  | .ins x => insert list x
  | .rem k => removeById list k
  | .upd p => update list p

/-- Apply a sequence of mutation calls, left to right. -/
def applyOps (list : IdKeyedList) (ops : List Op) : IdKeyedList :=
  ops.foldl applyOp list

/-- Guard under which a call keeps the order invariant: `append`/`insert` only
with an id not yet in `keys`, `update` only with an id already in `keys`,
`removeById` unconditionally. -/
def okOp (list : IdKeyedList) : Op → Bool
  | .app x => !(list.keys.contains x.id)
  | .ins x => !(list.keys.contains x.id)
  | .rem _ => true
  | .upd p => list.keys.contains p.id

/-- All calls of the sequence are guarded, each against the list it is applied
to. -/
def okSeq (list : IdKeyedList) : List Op → Bool
  | [] => true
  | op :: ops => okOp list op && okSeq (applyOp list op) ops

/-! ### Heap model for aliasing claims

The pure model above identifies a copy `{...x}` with `x`; claims about mutating
a shared object need the distinction, so here objects live in a heap addressed
by `Nat`, element variables and the values of the `elements` object are
addresses, and JS field mutation is `hwrite`.  Only the operations the aliasing
claim mentions are reproduced. -/

/-- A JS heap: contents of every address plus the allocation frontier (every
live object sits below `next`, fresh objects are allocated at `next`). -/
structure Heap where
  mem : Nat → PElem
  next : Nat

/-- Allocate a fresh object, as `{...o}` does. -/
def halloc (h : Heap) (o : PElem) : Heap × Nat :=
  (⟨fun b => if b = h.next then o else h.mem b, h.next + 1⟩, h.next)

/-- Mutate the object at address `a` (e.g. assign one of its fields). -/
def hwrite (h : Heap) (a : Nat) (o : PElem) : Heap :=
  ⟨fun b => if b = a then o else h.mem b, h.next⟩

/-- A keyed list whose `elements` object stores object references. -/
structure HKeyedList where
  keys : List String
  elements : JsObj Nat

/-- The reducer of the heap-level `fromArray`: reads the argument object,
allocates a fresh copy `{...curr}` of it, and stores the copy's address under
the object's id. -/
def hfromStep (acc : Heap × JsObj Nat) (a : Nat) : Heap × JsObj Nat :=
  let o := acc.1.mem a
  let hb := halloc acc.1 o
  (hb.1, objGrow acc.2 o.id hb.2)

/-- Heap-level `fromArray`: keys are read first from the argument objects, then
the reduce allocates a fresh copy `{...curr}` of every argument object and
stores the copy's address. -/
def hfromArray (h : Heap) (array : List Nat) : Heap × HKeyedList :=
  let r := array.foldl hfromStep (h, [])
  (r.1, { keys := array.map (fun a => (h.mem a).id), elements := r.2 })

/-- Heap-level `append`: stores the argument's address itself — `[x.id]: x`
performs no copy. -/
def happend (h : Heap) (list : HKeyedList) (a : Nat) : HKeyedList :=
  { keys := list.keys ++ [(h.mem a).id]
    elements := objGrow list.elements (h.mem a).id a }

/-- Heap-level `getById`: returns the stored reference; what the caller
observes for that id is the current object at that address. -/
def hgetById (h : Heap) (list : HKeyedList) (i : String) : Option PElem :=
  (objGet list.elements i).map h.mem

/-- Heap-level `update`: reads the patch object, merges it over the stored base
object with `Object.assign({}, base, patch)` — which builds a FRESH object —
and stores the fresh object's address under the patch's id; `keys` is carried
over. -/
def hupdate (h : Heap) (list : HKeyedList) (a : Nat) : Heap × HKeyedList :=
  let patch := h.mem a
  let merged := mergeAssign ((objGet list.elements patch.id).map h.mem) patch
  let hb := halloc h merged
  (hb.1, { keys := list.keys, elements := objGrow list.elements patch.id hb.2 })

/-- The body of the heap-level `getByIds` loop: on a hit, push the address of a
fresh copy `{...x}` of the stored object; on a miss, push nothing. -/
def hgetByIdsStep (list : HKeyedList) (acc : Heap × List Nat) (i : String) :
    Heap × List Nat :=
  match objGet list.elements i with
  | some b =>
    let hb := halloc acc.1 (acc.1.mem b)
    (hb.1, acc.2 ++ [hb.2])
  | none => acc

/-- Heap-level `getByIds`: returns the addresses of the fresh copies, in the
order of the `ids` argument. -/
def hgetByIds (h : Heap) (list : HKeyedList) (ids : List String) :
    Heap × List Nat :=
  ids.foldl (hgetByIdsStep list) (h, [])

/-- The body of the heap-level `toArray` loop: allocate a fresh copy
`{...list.elements[k]}` for the key (the empty-spread object when the key
dangles) and push its address. -/
def htoArrayStep (list : HKeyedList) (acc : Heap × List Nat) (k : String) :
    Heap × List Nat :=
  let o := match objGet list.elements k with
    | some b => acc.1.mem b
    | none => undefinedSpread
  let hb := halloc acc.1 o
  (hb.1, acc.2 ++ [hb.2])

/-- Heap-level `toArray`: one fresh copy per key, in key order. -/
def htoArray (h : Heap) (list : HKeyedList) : Heap × List Nat :=
  list.keys.foldl (htoArrayStep list) (h, [])

/-! ### Basic lemmas about the JS-object operations -/

theorem objGet_nil {β : Type} (k : String) : objGet ([] : JsObj β) k = none := rfl

theorem objGet_cons {β : Type} (p : String × β) (es : JsObj β) (k : String) :
    objGet (p :: es) k = if p.fst = k then some p.snd else objGet es k := by
  by_cases h : p.fst = k
  · simp [objGet, List.find?, h]
  · have hb : (p.fst == k) = false := by simp [h]
    simp [objGet, List.find?, hb, h]

theorem objGet_objGrow_self {β : Type} (es : JsObj β) (k : String) (v : β) :
    objGet (objGrow es k v) k = some v := by
  induction es with
  | nil => simp [objGrow, objGet_cons]
  | cons p es ih =>
    by_cases h : p.fst = k
    · simp [objGrow, h, objGet_cons]
    · simp [objGrow, h, objGet_cons, ih]

theorem objGet_objGrow_ne {β : Type} (es : JsObj β) {k j : String} (v : β)
    (h : j ≠ k) : objGet (objGrow es k v) j = objGet es j := by
  have hkj : k ≠ j := fun hh => h hh.symm
  induction es with
  | nil => simp [objGrow, objGet_cons, objGet_nil, hkj]
  | cons p es ih =>
    by_cases hp : p.fst = k
    · have hpj : ¬ p.fst = j := by rw [hp]; exact hkj
      simp [objGrow, hp, objGet_cons, hkj, hpj]
    · simp only [objGrow, hp, if_false]
      rw [objGet_cons, objGet_cons, ih]

theorem mem_objGrow {β : Type} {es : JsObj β} {k : String} {v : β}
    {q : String × β} (h : q ∈ objGrow es k v) : q ∈ es ∨ q = (k, v) := by
  induction es with
  | nil => simp [objGrow] at h; simp [h]
  | cons p es ih =>
    by_cases hp : p.fst = k
    · simp [objGrow, hp] at h
      rcases h with h | h
      · exact Or.inr h
      · exact Or.inl (List.mem_cons_of_mem _ h)
    · simp only [objGrow, hp, if_false, List.mem_cons] at h
      rcases h with h | h
      · exact Or.inl (by simp [h])
      · rcases ih h with h2 | h2
        · exact Or.inl (List.mem_cons_of_mem _ h2)
        · exact Or.inr h2

theorem mem_map_fst_objGrow {β : Type} (es : JsObj β) (k j : String) (v : β) :
    j ∈ (objGrow es k v).map Prod.fst ↔ j ∈ es.map Prod.fst ∨ j = k := by
  induction es with
  | nil => simp [objGrow]
  | cons p es ih =>
    by_cases hp : p.fst = k
    · simp [objGrow, hp]
      tauto
    · simp only [objGrow, hp, if_false, List.map_cons, List.mem_cons, ih]
      tauto

theorem map_fst_objGrow_mem {β : Type} {es : JsObj β} {k : String} (v : β)
    (h : k ∈ es.map Prod.fst) :
    (objGrow es k v).map Prod.fst = es.map Prod.fst := by
  induction es with
  | nil => simp at h
  | cons p es ih =>
    by_cases hp : p.fst = k
    · simp [objGrow, hp]
    · simp only [List.map_cons, List.mem_cons] at h
      rcases h with h | h
      · exact absurd h.symm hp
      · simp only [objGrow, hp, if_false, List.map_cons, ih h]

theorem objGrow_of_not_mem {β : Type} {es : JsObj β} {k : String} (v : β)
    (h : k ∉ es.map Prod.fst) : objGrow es k v = es ++ [(k, v)] := by
  induction es with
  | nil => simp [objGrow]
  | cons p es ih =>
    simp only [List.map_cons, List.mem_cons] at h
    push_neg at h
    have hp : ¬ p.fst = k := fun hh => h.1 hh.symm
    simp only [objGrow, hp, if_false, List.cons_append, List.cons.injEq, true_and]
    exact ih h.2

theorem WFE_objGrow {β : Type} {es : JsObj β} (k : String) (v : β)
    (h : WFE es) : WFE (objGrow es k v) := by
  by_cases hm : k ∈ es.map Prod.fst
  · unfold WFE
    rw [map_fst_objGrow_mem v hm]
    exact h
  · unfold WFE
    rw [objGrow_of_not_mem v hm]
    simp only [List.map_append, List.map_cons, List.map_nil]
    rw [List.nodup_append]
    refine ⟨h, by simp, ?_⟩
    intro a ha
    simp only [List.mem_cons, List.not_mem_nil, or_false]
    intro hak
    exact hm (hak ▸ ha)

theorem objGet_eq_none_iff {β : Type} (es : JsObj β) (k : String) :
    objGet es k = none ↔ k ∉ es.map Prod.fst := by
  simp only [objGet, Option.map_eq_none', List.find?_eq_none, beq_iff_eq,
    List.mem_map]
  constructor
  · rintro h ⟨p, hp, rfl⟩
    exact h p hp rfl
  · intro h p hp hk
    exact h ⟨p, hp, hk⟩

theorem mem_of_objGet_eq_some {β : Type} {es : JsObj β} {k : String} {v : β}
    (h : objGet es k = some v) : (k, v) ∈ es := by
  simp only [objGet, Option.map_eq_some'] at h
  obtain ⟨p, hp, rfl⟩ := h
  have hmem := List.mem_of_find?_eq_some hp
  have hkey : p.fst = k := by simpa using List.find?_some hp
  rcases p with ⟨pk, pv⟩
  simp only at hkey
  simpa [hkey] using hmem

theorem objGet_of_mem {β : Type} {es : JsObj β} {k : String} {v : β}
    (hWF : WFE es) (hm : (k, v) ∈ es) : objGet es k = some v := by
  induction es with
  | nil => simp at hm
  | cons p es ih =>
    unfold WFE at hWF
    simp only [List.map_cons, List.nodup_cons] at hWF
    rcases List.mem_cons.mp hm with h | h
    · rw [← h, objGet_cons]; simp
    · rw [objGet_cons]
      have hk : p.fst ≠ k := by
        intro hh
        exact hWF.1 (hh ▸ (List.mem_map.mpr ⟨(k, v), h, rfl⟩))
      simp only [hk, if_false]
      exact ih hWF.2 h

/-! ### Lemmas about the elements-rebuilding folds -/

theorem option_eq_of_some_iff {α : Type} {a b : Option α}
    (h : ∀ x, a = some x ↔ b = some x) : a = b := by
  cases a with
  | some x => exact ((h x).mp rfl).symm
  | none =>
    cases b with
    | none => rfl
    | some y => exact absurd ((h y).mpr rfl) (by simp)

theorem foldl_fromStep_objGet (vs : List PElem) (acc : JsObj PElem) (k : String) :
    objGet (vs.foldl fromStep acc) k
      = (vs.reverse.find? (fun v => v.id == k)).or (objGet acc k) := by
  induction vs generalizing acc with
  | nil => simp
  | cons x vs ih =>
    simp only [List.foldl_cons, ih, List.reverse_cons, List.find?_append]
    cases hf : vs.reverse.find? (fun v => v.id == k) with
    | some v => simp [Option.or]
    | none =>
      simp only [Option.none_or]
      by_cases hx : x.id = k
      · simp [fromStep, hx, objGet_objGrow_self, List.find?, Option.or]
      · have hb : (x.id == k) = false := by simp [hx]
        simp [fromStep, List.find?, hb,
          objGet_objGrow_ne _ _ (fun hh => hx hh.symm)]

theorem mem_map_fst_foldl_fromStep (vs : List PElem) (acc : JsObj PElem)
    (j : String) :
    j ∈ (vs.foldl fromStep acc).map Prod.fst
      ↔ j ∈ acc.map Prod.fst ∨ ∃ v ∈ vs, v.id = j := by
  induction vs generalizing acc with
  | nil => simp
  | cons x vs ih =>
    simp only [List.foldl_cons, fromStep, ih, mem_map_fst_objGrow, List.mem_cons]
    constructor
    · rintro ((h | h) | ⟨v, hv, hj⟩)
      · exact Or.inl h
      · exact Or.inr ⟨x, Or.inl rfl, h.symm⟩
      · exact Or.inr ⟨v, Or.inr hv, hj⟩
    · rintro (h | ⟨v, rfl | hv, hj⟩)
      · exact Or.inl (Or.inl h)
      · exact Or.inl (Or.inr hj.symm)
      · exact Or.inr ⟨v, hv, hj⟩

theorem KeyMatch_objGrow {es : JsObj PElem} {k : String} {v : PElem}
    (h : KeyMatch es) (hv : v.id = k) : KeyMatch (objGrow es k v) := by
  intro p hp
  rcases mem_objGrow hp with h2 | h2
  · exact h p h2
  · rw [h2]
    exact hv

theorem WFE_KeyMatch_foldl_fromStep (vs : List PElem) (acc : JsObj PElem)
    (hWF : WFE acc) (hKM : KeyMatch acc) :
    WFE (vs.foldl fromStep acc) ∧ KeyMatch (vs.foldl fromStep acc) := by
  induction vs generalizing acc with
  | nil => exact ⟨hWF, hKM⟩
  | cons x vs ih =>
    simp only [List.foldl_cons, fromStep]
    exact ih _ (WFE_objGrow _ _ hWF) (KeyMatch_objGrow hKM rfl)

theorem foldl_fromStep_of_fresh (vs : List PElem) (acc : JsObj PElem)
    (hfresh : ∀ v ∈ vs, v.id ∉ acc.map Prod.fst)
    (hnd : (vs.map (fun v => v.id)).Nodup) :
    vs.foldl fromStep acc = acc ++ vs.map (fun v => (v.id, v)) := by
  induction vs generalizing acc with
  | nil => simp
  | cons x vs ih =>
    simp only [List.map_cons, List.nodup_cons] at hnd
    simp only [List.foldl_cons, fromStep]
    rw [objGrow_of_not_mem x (hfresh x (List.mem_cons_self x vs))]
    rw [ih (acc ++ [(x.id, x)]) ?fresh hnd.2]
    · simp
    case fresh =>
      intro v hv
      simp only [List.map_append, List.mem_append, List.map_cons, List.map_nil,
        List.mem_singleton]
      rintro (h | h)
      · exact hfresh v (List.mem_cons_of_mem _ hv) h
      · exact hnd.1 (h ▸ List.mem_map.mpr ⟨v, hv, rfl⟩)

theorem foldl_removeStep_eq (i : String) (vs : List PElem) (acc : JsObj PElem) :
    vs.foldl (removeStep i) acc
      = (vs.filter (fun v => !(v.id == i))).foldl fromStep acc := by
  induction vs generalizing acc with
  | nil => rfl
  | cons x vs ih =>
    by_cases hx : x.id = i
    · simp [removeStep, hx, List.filter_cons, ih]
    · have hb : (x.id == i) = false := by simp [hx]
      simp [removeStep, hx, List.filter_cons, hb, ih, fromStep]

theorem find?_eq_some_of_nodup {vs : List PElem} {x : PElem} {k : String}
    (hnd : (vs.map (fun v => v.id)).Nodup) (hm : x ∈ vs) (hk : x.id = k) :
    vs.find? (fun v => v.id == k) = some x := by
  induction vs with
  | nil => simp at hm
  | cons y vs ih =>
    simp only [List.map_cons, List.nodup_cons] at hnd
    rcases List.mem_cons.mp hm with rfl | hm2
    · simp [List.find?, hk]
    · have hmap : x.id ∈ vs.map (fun v => v.id) := List.mem_map.mpr ⟨x, hm2, rfl⟩
      have hy : ¬ (y.id = k) := by
        intro hh
        have hyx : x.id = y.id := hk.trans hh.symm
        exact hnd.1 (hyx ▸ hmap)
      have hb : (y.id == k) = false := by simp [hy]
      simp [List.find?, hb, ih hnd.2 hm2]

/-! ### Facts about the individual operations -/

theorem mergeAssign_id (o : Option PElem) (p : PElem) :
    (mergeAssign o p).id = p.id := by
  cases o <;> rfl

theorem objGet_fromArray (xs : List PElem) (k : String) :
    objGet (fromArray xs).elements k
      = xs.reverse.find? (fun v => v.id == k) := by
  show objGet (xs.foldl fromStep []) k = _
  rw [foldl_fromStep_objGet, objGet_nil, Option.or_none]

theorem mem_values_id_iff {es : JsObj PElem} (hKM : KeyMatch es) (j : String) :
    (∃ v ∈ objValues es, v.id = j) ↔ j ∈ es.map Prod.fst := by
  constructor
  · rintro ⟨v, hv, rfl⟩
    obtain ⟨p, hp, rfl⟩ := List.mem_map.mp hv
    exact List.mem_map.mpr ⟨p, hp, (hKM p hp).symm⟩
  · intro h
    obtain ⟨p, hp, rfl⟩ := List.mem_map.mp h
    exact ⟨p.snd, List.mem_map.mpr ⟨p, hp, rfl⟩, hKM p hp⟩

theorem Inv_fromArray {xs : List PElem}
    (hnd : (xs.map (fun x => x.id)).Nodup) : Inv (fromArray xs) := by
  have hWK := WFE_KeyMatch_foldl_fromStep xs [] (by simp [WFE]) (by intro p hp; simp at hp)
  refine ⟨hnd, hWK.1, hWK.2, ?_, ?_⟩
  · intro k hk
    show k ∈ (xs.foldl fromStep []).map Prod.fst
    rw [mem_map_fst_foldl_fromStep]
    obtain ⟨x, hx, rfl⟩ := List.mem_map.mp hk
    exact Or.inr ⟨x, hx, rfl⟩
  · intro k hk
    rw [show (fromArray xs).elements = xs.foldl fromStep [] from rfl,
      mem_map_fst_foldl_fromStep] at hk
    rcases hk with h | ⟨v, hv, rfl⟩
    · simp at h
    · exact List.mem_map.mpr ⟨v, hv, rfl⟩

theorem Inv_append {list : IdKeyedList} {x : PElem} (h : Inv list)
    (hfresh : x.id ∉ list.keys) : Inv (append list x) := by
  obtain ⟨hnd, hWF, hKM, hS1, hS2⟩ := h
  have hfst : x.id ∉ list.elements.map Prod.fst := fun hh => hfresh (hS2 _ hh)
  refine ⟨?_, WFE_objGrow _ _ hWF, KeyMatch_objGrow hKM rfl, ?_, ?_⟩
  · rw [show (append list x).keys = list.keys ++ [x.id] from rfl, List.nodup_append]
    exact ⟨hnd, by simp, by intro a ha hb; simp at hb; exact hfresh (hb ▸ ha)⟩
  · intro k hk
    rw [show (append list x).elements = objGrow list.elements x.id x from rfl,
      mem_map_fst_objGrow]
    rcases List.mem_append.mp hk with h | h
    · exact Or.inl (hS1 _ h)
    · simp at h
      exact Or.inr h
  · intro k hk
    rw [show (append list x).elements = objGrow list.elements x.id x from rfl,
      mem_map_fst_objGrow] at hk
    rcases hk with h | h
    · exact List.mem_append.mpr (Or.inl (hS2 _ h))
    · rw [h, show (append list x).keys = list.keys ++ [x.id] from rfl]
      simp

theorem Inv_insert {list : IdKeyedList} {x : PElem} (h : Inv list)
    (hfresh : x.id ∉ list.keys) : Inv (insert list x) := by
  obtain ⟨hnd, hWF, hKM, hS1, hS2⟩ := h
  have hfst : x.id ∉ list.elements.map Prod.fst := fun hh => hfresh (hS2 _ hh)
  refine ⟨?_, WFE_objGrow _ _ hWF, KeyMatch_objGrow hKM rfl, ?_, ?_⟩
  · rw [show (insert list x).keys = x.id :: list.keys from rfl, List.nodup_cons]
    exact ⟨hfresh, hnd⟩
  · intro k hk
    rw [show (insert list x).elements = objGrow list.elements x.id x from rfl,
      mem_map_fst_objGrow]
    rcases List.mem_cons.mp hk with h | h
    · exact Or.inr h
    · exact Or.inl (hS1 _ h)
  · intro k hk
    rw [show (insert list x).elements = objGrow list.elements x.id x from rfl,
      mem_map_fst_objGrow] at hk
    rcases hk with h | h
    · exact List.mem_cons.mpr (Or.inr (hS2 _ h))
    · exact List.mem_cons.mpr (Or.inl h)

theorem Inv_update {list : IdKeyedList} {p : PElem} (h : Inv list)
    (hmem : p.id ∈ list.keys) : Inv (update list p) := by
  obtain ⟨hnd, hWF, hKM, hS1, hS2⟩ := h
  have hfst : p.id ∈ list.elements.map Prod.fst := hS1 _ hmem
  have hkeys : (update list p).elements.map Prod.fst = list.elements.map Prod.fst :=
    map_fst_objGrow_mem _ hfst
  refine ⟨hnd, ?_, KeyMatch_objGrow hKM (mergeAssign_id _ _), ?_, ?_⟩
  · unfold WFE
    rw [hkeys]
    exact hWF
  · intro k hk
    rw [hkeys]
    exact hS1 _ hk
  · intro k hk
    rw [hkeys] at hk
    exact hS2 _ hk

theorem Inv_removeById {list : IdKeyedList} (i : String) (h : Inv list) :
    Inv (removeById list i) := by
  obtain ⟨hnd, hWF, hKM, hS1, hS2⟩ := h
  have helems : (removeById list i).elements
      = ((objValues list.elements).filter (fun v => !(v.id == i))).foldl fromStep [] :=
    foldl_removeStep_eq i _ []
  have hWK := WFE_KeyMatch_foldl_fromStep
    ((objValues list.elements).filter (fun v => !(v.id == i))) []
    (by simp [WFE]) (by intro p hp; simp at hp)
  refine ⟨List.Nodup.filter _ hnd, helems ▸ hWK.1, helems ▸ hWK.2, ?_, ?_⟩
  · intro k hk
    rw [show (removeById list i).keys
        = list.keys.filter (fun xid => !(xid == i)) from rfl] at hk
    rw [List.mem_filter] at hk
    have hki : k ≠ i := by simpa using hk.2
    rw [helems, mem_map_fst_foldl_fromStep]
    refine Or.inr ?_
    obtain ⟨v, hv, hid⟩ := (mem_values_id_iff hKM k).mpr (hS1 _ hk.1)
    exact ⟨v, List.mem_filter.mpr ⟨hv, by simp [hid, hki]⟩, hid⟩
  · intro k hk
    rw [helems, mem_map_fst_foldl_fromStep] at hk
    rcases hk with hk | ⟨v, hv, rfl⟩
    · simp at hk
    · rw [List.mem_filter] at hv
      have hki : v.id ≠ i := by simpa using hv.2
      rw [show (removeById list i).keys
          = list.keys.filter (fun xid => !(xid == i)) from rfl, List.mem_filter]
      refine ⟨hS2 _ ((mem_values_id_iff hKM v.id).mp ⟨v, hv.1, rfl⟩), by simp [hki]⟩

theorem I1_of_Inv {list : IdKeyedList} (h : Inv list) : I1 list := by
  obtain ⟨hnd, _, _, hS1, hS2⟩ := h
  refine ⟨hnd, fun k => ?_⟩
  rw [Ne, objGet_eq_none_iff, not_not]
  exact ⟨fun hk => hS1 _ hk, fun hk => hS2 _ hk⟩

theorem Inv_applyOp {list : IdKeyedList} {op : Op} (h : Inv list)
    (hok : okOp list op = true) : Inv (applyOp list op) := by
  cases op with
  | app x =>
    have hx : x.id ∉ list.keys := by simpa [okOp] using hok
    exact Inv_append h hx
  | ins x =>
    have hx : x.id ∉ list.keys := by simpa [okOp] using hok
    exact Inv_insert h hx
  | rem k => exact Inv_removeById k h
  | upd p =>
    have hp : p.id ∈ list.keys := by simpa [okOp] using hok
    exact Inv_update h hp

theorem Inv_applyOps {list : IdKeyedList} {ops : List Op} (h : Inv list)
    (hok : okSeq list ops = true) : Inv (applyOps list ops) := by
  induction ops generalizing list with
  | nil => exact h
  | cons op ops ih =>
    simp only [okSeq, Bool.and_eq_true] at hok
    simp only [applyOps, List.foldl_cons]
    exact ih (Inv_applyOp h hok.1) hok.2

/-! ### Claim theorems -/

/-- **C2**, counterexample.  The claim fails as stated: starting from
`fromArray` on a one-element array, the single-call sequence `append` with an
element whose id is already present duplicates that id in `keys`, so invariant
I1 does not survive arbitrary call sequences. -/
theorem order_invariant_cex :
    ¬ I1 (applyOps (fromArray [{ id := "1", name := some "A", age := some 1 }])
      [Op.app { id := "1", name := some "A", age := some 1 }]) := by
  intro h
  exact absurd h.1 (by decide)

/-- **C2**, amended.  Starting from `fromArray` on an array of elements with
pairwise distinct ids, every sequence of `append`/`insert`/`removeById`/`update`
calls in which `append` and `insert` are only applied with an id not currently
in `keys` and `update` only with an id currently in `keys` (`removeById` is
unrestricted) yields a list satisfying invariant I1: `keys` has no duplicates
and its members are exactly the keys with an entry in `elements`. -/
theorem order_invariant_guarded (xs : List PElem) (ops : List Op)
    (hnd : (xs.map (fun x => x.id)).Nodup)
    (hok : okSeq (fromArray xs) ops = true) :
    I1 (applyOps (fromArray xs) ops) :=
  I1_of_Inv (Inv_applyOps (Inv_fromArray hnd) hok)

/-- **C2**, witness: a concrete guarded call sequence exercising all four
operations. -/
theorem order_invariant_guarded_witness :
    (([{ id := "1", name := some "A", age := some 1 },
       { id := "2", name := some "B", age := some 2 }] : List PElem).map
        (fun x => x.id)).Nodup ∧
    okSeq (fromArray [{ id := "1", name := some "A", age := some 1 },
       { id := "2", name := some "B", age := some 2 }])
      [Op.app { id := "3", name := none, age := none },
       Op.upd { id := "1", name := some "C", age := none },
       Op.rem "2",
       Op.ins { id := "4", name := none, age := none }] = true ∧
    I1 (applyOps (fromArray [{ id := "1", name := some "A", age := some 1 },
       { id := "2", name := some "B", age := some 2 }])
      [Op.app { id := "3", name := none, age := none },
       Op.upd { id := "1", name := some "C", age := none },
       Op.rem "2",
       Op.ins { id := "4", name := none, age := none }]) :=
  ⟨by decide, by decide, order_invariant_guarded _ _ (by decide) (by decide)⟩

/-- **C1**, counterexample.  For the one-element list under id "1" and a patch
whose id "9" is absent, `update` leaves `keys` alone but `elements` DOES gain
an entry under "9" (holding the patch itself), refuting the claim that the
`byKey` mapping does not gain an entry under an absent key. -/
theorem update_absent_adds_entry_cex :
    objGet (fromArray [{ id := "1", name := some "A", age := some 1 }]).elements
        "9" = none ∧
    "9" ∉ (fromArray [{ id := "1", name := some "A", age := some 1 }]).keys ∧
    objGet (update (fromArray [{ id := "1", name := some "A", age := some 1 }])
        { id := "9", name := some "B", age := none }).elements "9"
      = some { id := "9", name := some "B", age := none } := by
  refine ⟨by decide, by decide, by decide⟩

/-- **C1**, amended.  When `patch.id` is absent from `elements`, `update`
leaves `keys` unchanged but `elements` gains an entry under `patch.id` holding
exactly the patch's own fields (`Object.assign({}, undefined, patch)`); the
result is still not the same list as `append(list, patch)`, whose `keys` has
the extra id. -/
theorem update_absent_amended (list : IdKeyedList) (p : PElem)
    (h : objGet list.elements p.id = none) :
    (update list p).keys = list.keys ∧
    objGet (update list p).elements p.id = some p ∧
    update list p ≠ append list p := by
  refine ⟨rfl, ?_, ?_⟩
  · show objGet (objGrow list.elements p.id
      (mergeAssign (objGet list.elements p.id) p)) p.id = some p
    rw [h, objGet_objGrow_self]
    rfl
  · intro heq
    have hkeys : (update list p).keys = (append list p).keys := by rw [heq]
    have hlen := congrArg List.length hkeys
    simp [update, append] at hlen

/-- **C1**, witness for the amended theorem. -/
theorem update_absent_amended_witness :
    objGet (fromArray [{ id := "1", name := some "A", age := some 1 }]).elements
        (PElem.id { id := "9", name := some "B", age := none }) = none ∧
    ((update (fromArray [{ id := "1", name := some "A", age := some 1 }])
        { id := "9", name := some "B", age := none }).keys
      = (fromArray [{ id := "1", name := some "A", age := some 1 }]).keys ∧
    objGet (update (fromArray [{ id := "1", name := some "A", age := some 1 }])
        { id := "9", name := some "B", age := none }).elements
        (PElem.id { id := "9", name := some "B", age := none })
      = some { id := "9", name := some "B", age := none } ∧
    update (fromArray [{ id := "1", name := some "A", age := some 1 }])
        { id := "9", name := some "B", age := none }
      ≠ append (fromArray [{ id := "1", name := some "A", age := some 1 }])
        { id := "9", name := some "B", age := none }) :=
  ⟨by decide, update_absent_amended _ _ (by decide)⟩

/-- **C9**.  Duplicate-id handling never rejects and splits between the two
fields: `fromArray` lists one `keys` occurrence per input occurrence while its
`elements` object maps every id to the LAST input element carrying it;
`append`/`insert` always add the element's id at the end / the front of `keys`
(also when already present) while `elements` maps that id to the new element. -/
theorem duplicate_id_handling (xs : List PElem) (list : IdKeyedList)
    (x : PElem) (k : String) :
    (fromArray xs).keys = xs.map (fun v => v.id) ∧
    objGet (fromArray xs).elements k = xs.reverse.find? (fun v => v.id == k) ∧
    (append list x).keys = list.keys ++ [x.id] ∧
    objGet (append list x).elements x.id = some x ∧
    (insert list x).keys = x.id :: list.keys ∧
    objGet (insert list x).elements x.id = some x :=
  ⟨rfl, objGet_fromArray xs k, rfl, objGet_objGrow_self _ _ _, rfl,
    objGet_objGrow_self _ _ _⟩

/-- **C7**.  Position-based lookups return absence (never raise): a negative or
out-of-bounds index to `getByIndex`/`getIdByIndex` yields `none` on every list,
and on the empty list `fromArray []` the operations `getFirst`, `getLast` and
`getByIndex` yield `none` while `getCount` is `0`. -/
theorem position_lookup_absence (list : IdKeyedList) (index : Int) :
    (index < 0 →
      getByIndex list index = none ∧ getIdByIndex list index = none) ∧
    ((list.keys.length : Int) ≤ index →
      getByIndex list index = none ∧ getIdByIndex list index = none) ∧
    getFirst (fromArray []) = none ∧
    getLast (fromArray []) = none ∧
    getByIndex (fromArray []) index = none ∧
    getIdByIndex (fromArray []) index = none ∧
    getCount (fromArray []) = 0 := by
  refine ⟨?_, ?_, rfl, rfl, ?_, ?_, rfl⟩
  · intro h
    have hn : ¬ 0 ≤ index := not_le.mpr h
    exact ⟨by simp [getByIndex, hn], by simp [getIdByIndex, hn]⟩
  · intro h
    have h0 : list.keys.length ≤ index.toNat := by
      have := Int.toNat_le_toNat h
      simpa using this
    have hget : list.keys.get? index.toNat = none := List.get?_eq_none.mpr h0
    rcases Decidable.em (0 ≤ index) with hpos | hneg
    · constructor
      · unfold getByIndex
        rw [if_pos hpos, hget]
      · unfold getIdByIndex
        rw [if_pos hpos, hget]
    · constructor
      · unfold getByIndex
        rw [if_neg hneg]
      · unfold getIdByIndex
        rw [if_neg hneg]
  · unfold getByIndex
    rcases Decidable.em (0 ≤ index) with h | h <;> simp [h, fromArray]
  · unfold getIdByIndex
    rcases Decidable.em (0 ≤ index) with h | h <;> simp [h, fromArray]

/-- **C7**, witness. -/
theorem position_lookup_absence_witness :
    ((-1 : Int) < 0 →
      getByIndex (fromArray [{ id := "1", name := some "A", age := some 1 }])
          (-1) = none ∧
      getIdByIndex (fromArray [{ id := "1", name := some "A", age := some 1 }])
          (-1) = none) ∧
    (((fromArray [{ id := "1", name := some "A", age := some 1 }]).keys.length
        : Int) ≤ -1 →
      getByIndex (fromArray [{ id := "1", name := some "A", age := some 1 }])
          (-1) = none ∧
      getIdByIndex (fromArray [{ id := "1", name := some "A", age := some 1 }])
          (-1) = none) ∧
    getFirst (fromArray []) = none ∧
    getLast (fromArray []) = none ∧
    getByIndex (fromArray []) (-1) = none ∧
    getIdByIndex (fromArray []) (-1) = none ∧
    getCount (fromArray []) = 0 :=
  position_lookup_absence (fromArray [{ id := "1", name := some "A", age := some 1 }]) (-1)

theorem foldl_push_filterMap (list : IdKeyedList) (ids : List String)
    (acc : List PElem) :
    ids.foldl
        (fun newElements i =>
          match objGet list.elements i with
          | some x => newElements ++ [x]
          | none => newElements) acc
      = acc ++ ids.filterMap (fun i => objGet list.elements i) := by
  induction ids generalizing acc with
  | nil => simp
  | cons i ids ih =>
    cases h : objGet list.elements i with
    | some x =>
      simp only [List.foldl_cons, List.filterMap_cons, h]
      rw [ih]
      simp
    | none =>
      simp only [List.foldl_cons, List.filterMap_cons, h]
      exact ih acc

/-- **C5**.  `getByIds` returns, in the order the `ids` argument was given,
exactly the element copies for the ids present in the list (`getById` hits),
silently skipping absent ids; an empty ids argument, or one containing only
absent ids, yields the empty sequence. -/
theorem getByIds_spec (list : IdKeyedList) (ids : List String) :
    getByIds list ids = ids.filterMap (fun i => getById list i) ∧
    getByIds list [] = [] ∧
    ((∀ i ∈ ids, getById list i = none) → getByIds list ids = []) := by
  have hmain : ∀ js, getByIds list js = js.filterMap (fun i => getById list i) := by
    intro js
    rw [getByIds, foldl_push_filterMap]
    rfl
  refine ⟨hmain ids, hmain [], fun h => ?_⟩
  rw [hmain ids, List.filterMap_eq_nil_iff]
  exact h

/-- **C5**, witness: the spec's own example — ids `["2", "1", "9"]` against the
two-element list return elements `"2"` then `"1"`, skipping `"9"`. -/
theorem getByIds_spec_witness :
    (getByIds (fromArray [{ id := "1", name := some "A", age := some 1 },
        { id := "2", name := some "B", age := some 2 }]) ["2", "1", "9"]
      = (["2", "1", "9"].filterMap (fun i =>
          getById (fromArray [{ id := "1", name := some "A", age := some 1 },
            { id := "2", name := some "B", age := some 2 }]) i)) ∧
    getByIds (fromArray [{ id := "1", name := some "A", age := some 1 },
        { id := "2", name := some "B", age := some 2 }]) [] = [] ∧
    ((∀ i ∈ (["2", "1", "9"] : List String),
        getById (fromArray [{ id := "1", name := some "A", age := some 1 },
          { id := "2", name := some "B", age := some 2 }]) i = none) →
      getByIds (fromArray [{ id := "1", name := some "A", age := some 1 },
        { id := "2", name := some "B", age := some 2 }]) ["2", "1", "9"] = [])) ∧
    getByIds (fromArray [{ id := "1", name := some "A", age := some 1 },
        { id := "2", name := some "B", age := some 2 }]) ["2", "1", "9"]
      = [{ id := "2", name := some "B", age := some 2 },
         { id := "1", name := some "A", age := some 1 }] :=
  ⟨getByIds_spec _ _, by decide⟩

theorem keyedListExt {a b : IdKeyedList} (h1 : a.keys = b.keys)
    (h2 : a.elements = b.elements) : a = b := by
  cases a
  cases b
  simp_all

theorem values_map_id_eq {es : JsObj PElem} (hKM : KeyMatch es) :
    (objValues es).map (fun v => v.id) = es.map Prod.fst := by
  unfold objValues
  rw [List.map_map]
  exact List.map_congr_left (fun p hp => hKM p hp)

theorem map_idPair_values {es : JsObj PElem} (hKM : KeyMatch es) :
    (objValues es).map (fun v => (v.id, v)) = es := by
  unfold objValues
  rw [List.map_map]
  have h : ∀ p ∈ es, ((fun v => (v.id, v)) ∘ Prod.snd) p = p := by
    intro p hp
    simp [hKM p hp]
  rw [List.map_congr_left h]
  simp

theorem foldl_fromStep_objValues_self {es : JsObj PElem} (hWF : WFE es)
    (hKM : KeyMatch es) : (objValues es).foldl fromStep [] = es := by
  rw [foldl_fromStep_of_fresh]
  · rw [List.nil_append]
    exact map_idPair_values hKM
  · intro v hv
    simp
  · rw [values_map_id_eq hKM]
    exact hWF

theorem values_filter_comm {es : JsObj PElem} (hKM : KeyMatch es) (i : String) :
    (objValues es).filter (fun v => !(v.id == i))
      = objValues (es.filter (fun p => !(p.fst == i))) := by
  unfold objValues
  rw [List.filter_map]
  exact congrArg (List.map Prod.snd)
    (List.filter_congr (fun p hp => by simp [Function.comp, hKM p hp]))

theorem KeyMatch_filter {es : JsObj PElem} (hKM : KeyMatch es) (i : String) :
    KeyMatch (es.filter (fun p => !(p.fst == i))) :=
  fun p hp => hKM p (List.mem_of_mem_filter hp)

theorem WFE_filter {es : JsObj PElem} (hWF : WFE es) (i : String) :
    WFE (es.filter (fun p => !(p.fst == i))) := by
  unfold WFE at *
  exact List.Nodup.sublist (List.Sublist.map Prod.fst (List.filter_sublist es)) hWF

theorem removeById_elements_eq {list : IdKeyedList} (i : String)
    (hWF : WFE list.elements) (hKM : KeyMatch list.elements) :
    (removeById list i).elements
      = list.elements.filter (fun p => !(p.fst == i)) := by
  rw [show (removeById list i).elements
      = (objValues list.elements).foldl (removeStep i) [] from rfl,
    foldl_removeStep_eq, values_filter_comm hKM,
    foldl_fromStep_objValues_self (WFE_filter hWF i) (KeyMatch_filter hKM i)]

theorem objGet_filter_ne {β : Type} {es : JsObj β} {k i : String} (h : k ≠ i) :
    objGet (es.filter (fun p => !(p.fst == i))) k = objGet es k := by
  induction es with
  | nil => rfl
  | cons p es ih =>
    by_cases hp : p.fst = i
    · have h2 : (p.fst == i) = true := by simp [hp]
      have h3 : ¬ p.fst = k := by
        rw [hp]
        exact fun hh => h hh.symm
      rw [List.filter_cons, h2, Bool.not_true, if_neg Bool.false_ne_true, ih,
        objGet_cons, if_neg h3]
    · have h2 : (p.fst == i) = false := by simp [hp]
      rw [List.filter_cons, h2, Bool.not_false, if_pos rfl, objGet_cons,
        objGet_cons, ih]

theorem removeById_no_key (list : IdKeyedList) (i : String) :
    ∀ p ∈ (removeById list i).elements, p.fst ≠ i := by
  intro p hp
  have hmem : p.fst ∈ ((removeById list i).elements.map Prod.fst) :=
    List.mem_map.mpr ⟨p, hp, rfl⟩
  rw [show (removeById list i).elements
      = (objValues list.elements).foldl (removeStep i) [] from rfl,
    foldl_removeStep_eq, mem_map_fst_foldl_fromStep] at hmem
  rcases hmem with h | ⟨v, hv, hvp⟩
  · simp at h
  · have hvi : v.id ≠ i := by simpa using (List.mem_filter.mp hv).2
    rw [← hvp]
    exact hvi

/-- **C8**.  Removal is idempotent on every list, and removing an absent key
from a (well-formed) list is a no-op returning an equal list. -/
theorem removeById_idempotent (list : IdKeyedList) (k : String) :
    removeById (removeById list k) k = removeById list k ∧
    (WFE list.elements → KeyMatch list.elements → k ∉ list.keys →
      objGet list.elements k = none → removeById list k = list) := by
  constructor
  · have hWK := WFE_KeyMatch_foldl_fromStep
      ((objValues list.elements).filter (fun v => !(v.id == k))) []
      (by simp [WFE]) (by intro p hp; simp at hp)
    have hWF1 : WFE (removeById list k).elements := by
      rw [show (removeById list k).elements
          = (objValues list.elements).foldl (removeStep k) [] from rfl,
        foldl_removeStep_eq]
      exact hWK.1
    have hKM1 : KeyMatch (removeById list k).elements := by
      rw [show (removeById list k).elements
          = (objValues list.elements).foldl (removeStep k) [] from rfl,
        foldl_removeStep_eq]
      exact hWK.2
    apply keyedListExt
    · show ((removeById list k).keys).filter (fun xid => !(xid == k))
        = list.keys.filter (fun xid => !(xid == k))
      rw [show (removeById list k).keys
          = list.keys.filter (fun xid => !(xid == k)) from rfl,
        List.filter_filter]
      simp
    · show (objValues (removeById list k).elements).foldl (removeStep k) []
        = (removeById list k).elements
      rw [foldl_removeStep_eq]
      have hall : (objValues (removeById list k).elements).filter
          (fun v => !(v.id == k)) = objValues (removeById list k).elements := by
        rw [List.filter_eq_self]
        intro v hv
        obtain ⟨p, hp, rfl⟩ := List.mem_map.mp hv
        have := removeById_no_key list k p hp
        simp [hKM1 p hp, this]
      rw [hall]
      exact foldl_fromStep_objValues_self hWF1 hKM1
  · intro hWF hKM hk hobj
    apply keyedListExt
    · show list.keys.filter (fun xid => !(xid == k)) = list.keys
      rw [List.filter_eq_self]
      intro a ha
      simp only [Bool.not_eq_eq_eq_not, Bool.not_true, beq_eq_false_iff_ne, ne_eq]
      intro hh
      exact hk (hh ▸ ha)
    · show (objValues list.elements).foldl (removeStep k) [] = list.elements
      rw [foldl_removeStep_eq]
      have hall : (objValues list.elements).filter (fun v => !(v.id == k))
          = objValues list.elements := by
        rw [List.filter_eq_self]
        intro v hv
        obtain ⟨p, hp, rfl⟩ := List.mem_map.mp hv
        have hpk : p.fst ≠ k := by
          intro hh
          rw [objGet_eq_none_iff] at hobj
          exact hobj (hh ▸ List.mem_map.mpr ⟨p, hp, rfl⟩)
        simp [hKM p hp, hpk]
      rw [hall]
      exact foldl_fromStep_objValues_self hWF hKM

/-- **C8**, witness: removing the absent key `"9"` from a concrete two-element
list is a no-op, and removal is idempotent there. -/
theorem removeById_idempotent_witness :
    WFE (fromArray [{ id := "1", name := some "A", age := some 1 },
        { id := "2", name := some "B", age := some 2 }]).elements ∧
    KeyMatch (fromArray [{ id := "1", name := some "A", age := some 1 },
        { id := "2", name := some "B", age := some 2 }]).elements ∧
    "9" ∉ (fromArray [{ id := "1", name := some "A", age := some 1 },
        { id := "2", name := some "B", age := some 2 }]).keys ∧
    objGet (fromArray [{ id := "1", name := some "A", age := some 1 },
        { id := "2", name := some "B", age := some 2 }]).elements "9" = none ∧
    removeById (fromArray [{ id := "1", name := some "A", age := some 1 },
        { id := "2", name := some "B", age := some 2 }]) "9"
      = fromArray [{ id := "1", name := some "A", age := some 1 },
        { id := "2", name := some "B", age := some 2 }] ∧
    removeById (removeById (fromArray
        [{ id := "1", name := some "A", age := some 1 },
         { id := "2", name := some "B", age := some 2 }]) "9") "9"
      = removeById (fromArray [{ id := "1", name := some "A", age := some 1 },
        { id := "2", name := some "B", age := some 2 }]) "9" :=
  ⟨by decide, by decide, by decide, by decide,
    (removeById_idempotent _ "9").2 (by decide) (by decide) (by decide)
      (by decide),
    (removeById_idempotent _ "9").1⟩

/-- **C10**.  `removeById` purges the id completely, also when `keys` holds it
more than once: the id is gone from `keys` and from `elements`, the surviving
keys form the same-order sublist of the old `keys` (exactly the members
different from the id), and every other id still looks up the same element. -/
theorem removeById_removes_all (list : IdKeyedList) (i : String)
    (hWF : WFE list.elements) (hKM : KeyMatch list.elements) :
    i ∉ (removeById list i).keys ∧
    objGet (removeById list i).elements i = none ∧
    (removeById list i).keys.Sublist list.keys ∧
    (∀ k, k ∈ (removeById list i).keys ↔ k ∈ list.keys ∧ k ≠ i) ∧
    (∀ k, k ≠ i → objGet (removeById list i).elements k
      = objGet list.elements k) := by
  have helems := removeById_elements_eq i hWF hKM
  refine ⟨?_, ?_, ?_, ?_, ?_⟩
  · intro hmem
    rw [show (removeById list i).keys
        = list.keys.filter (fun xid => !(xid == i)) from rfl,
      List.mem_filter] at hmem
    simpa using hmem.2
  · rw [objGet_eq_none_iff]
    intro hmem
    obtain ⟨p, hp, hpi⟩ := List.mem_map.mp hmem
    exact removeById_no_key list i p hp hpi
  · exact List.filter_sublist list.keys
  · intro k
    rw [show (removeById list i).keys
        = list.keys.filter (fun xid => !(xid == i)) from rfl,
      List.mem_filter]
    simp
  · intro k hk
    rw [helems]
    exact objGet_filter_ne hk

/-- **C10**, witness: a list whose `keys` holds `"1"` twice (built by a
duplicate `append`). -/
theorem removeById_removes_all_witness :
    WFE (append (fromArray [{ id := "1", name := some "A", age := some 1 },
        { id := "2", name := some "B", age := some 2 }])
        { id := "1", name := some "C", age := none }).elements ∧
    KeyMatch (append (fromArray [{ id := "1", name := some "A", age := some 1 },
        { id := "2", name := some "B", age := some 2 }])
        { id := "1", name := some "C", age := none }).elements ∧
    "1" ∉ (removeById (append (fromArray
        [{ id := "1", name := some "A", age := some 1 },
         { id := "2", name := some "B", age := some 2 }])
        { id := "1", name := some "C", age := none }) "1").keys ∧
    objGet (removeById (append (fromArray
        [{ id := "1", name := some "A", age := some 1 },
         { id := "2", name := some "B", age := some 2 }])
        { id := "1", name := some "C", age := none }) "1").elements "1" = none :=
  have h := removeById_removes_all
    (append (fromArray [{ id := "1", name := some "A", age := some 1 },
      { id := "2", name := some "B", age := some 2 }])
      { id := "1", name := some "C", age := none }) "1" (by decide) (by decide)
  ⟨by decide, by decide, h.1, h.2.1⟩

/-- **C4**.  Round-trip: for every element sequence with pairwise-distinct ids,
`toArray (fromArray xs)` is element-wise equal to `xs` (in the pure-value model
the copies are equal values; object identity is the heap model's concern). -/
theorem toArray_fromArray_roundtrip (xs : List PElem)
    (hnd : (xs.map (fun x => x.id)).Nodup) : toArray (fromArray xs) = xs := by
  unfold toArray
  rw [show (fromArray xs).keys = xs.map (fun x => x.id) from rfl, List.map_map]
  have h : ∀ x ∈ xs,
      ((fun k => (objGet (fromArray xs).elements k).getD undefinedSpread) ∘
        (fun x => x.id)) x = x := by
    intro x hx
    have hrev : (xs.reverse.map (fun v => v.id)).Nodup := by
      rw [List.map_reverse]
      exact List.nodup_reverse.mpr hnd
    have hfind := find?_eq_some_of_nodup hrev (List.mem_reverse.mpr hx) rfl
    simp [Function.comp, objGet_fromArray, hfind]
  rw [List.map_congr_left h]
  simp

/-- **C4**, witness. -/
theorem toArray_fromArray_roundtrip_witness :
    (([{ id := "1", name := some "A", age := some 1 },
       { id := "2", name := some "B", age := some 2 }] : List PElem).map
        (fun x => x.id)).Nodup ∧
    toArray (fromArray [{ id := "1", name := some "A", age := some 1 },
        { id := "2", name := some "B", age := some 2 }])
      = [{ id := "1", name := some "A", age := some 1 },
         { id := "2", name := some "B", age := some 2 }] :=
  ⟨by decide, toArray_fromArray_roundtrip _ (by decide)⟩

theorem objGet_keys_some {list : IdKeyedList} (hInv : Inv list) {k : String}
    (hk : k ∈ list.keys) : ∃ v, objGet list.elements k = some v ∧ v.id = k := by
  obtain ⟨-, hWF, hKM, hS1, -⟩ := hInv
  obtain ⟨p, hp, hpk⟩ := List.mem_map.mp (hS1 _ hk)
  rcases p with ⟨pk, pv⟩
  simp only at hpk
  subst hpk
  exact ⟨pv, objGet_of_mem hWF hp, hKM _ hp⟩

theorem toArray_map_id {list : IdKeyedList} (hInv : Inv list) :
    (toArray list).map (fun x => x.id) = list.keys := by
  unfold toArray
  rw [List.map_map]
  have h : ∀ k ∈ list.keys,
      ((fun x => PElem.id x) ∘
        (fun k => (objGet list.elements k).getD undefinedSpread)) k = k := by
    intro k hk
    obtain ⟨v, hv, hvid⟩ := objGet_keys_some hInv hk
    simp [Function.comp, hv, hvid]
  rw [List.map_congr_left h]
  simp

theorem objGet_some_mem_toArray {list : IdKeyedList} (hInv : Inv list)
    {k : String} {x : PElem} (h : objGet list.elements k = some x) :
    x ∈ toArray list ∧ x.id = k := by
  obtain ⟨-, hWF, hKM, -, hS2⟩ := hInv
  have hmem := mem_of_objGet_eq_some h
  have hid : x.id = k := hKM _ hmem
  have hk : k ∈ list.keys := hS2 _ (List.mem_map.mpr ⟨(k, x), hmem, rfl⟩)
  exact ⟨List.mem_map.mpr ⟨k, hk, by simp [h]⟩, hid⟩

theorem objGet_eq_some_of_mem_toArray {list : IdKeyedList} (hInv : Inv list)
    {x : PElem} (hx : x ∈ toArray list) : objGet list.elements x.id = some x := by
  obtain ⟨k, hk, hgd⟩ := List.mem_map.mp hx
  obtain ⟨v, hv, hvid⟩ := objGet_keys_some hInv hk
  rw [hv] at hgd
  simp only [Option.getD_some] at hgd
  subst hgd
  rw [hvid]
  exact hv

theorem find?_reverse_char {se : List PElem} {k : String} {x : PElem}
    (hnd : (se.map (fun v => v.id)).Nodup) :
    se.reverse.find? (fun v => v.id == k) = some x ↔ x ∈ se ∧ x.id = k := by
  constructor
  · intro h
    have h1 : x.id = k := by simpa using List.find?_some h
    have h2 : x ∈ se := List.mem_reverse.mp (List.mem_of_find?_eq_some h)
    exact ⟨h2, h1⟩
  · rintro ⟨hm, hk⟩
    apply find?_eq_some_of_nodup ?nd (List.mem_reverse.mpr hm) hk
    case nd =>
      rw [List.map_reverse]
      exact List.nodup_reverse.mpr hnd

theorem sort_se_nodup {list : IdKeyedList} (hInv : Inv list)
    (cmp : PElem → PElem → Int) :
    (((toArray list).mergeSort
        (fun a b => decide (cmp a b ≤ 0))).map (fun v => v.id)).Nodup := by
  have hperm := List.mergeSort_perm (toArray list) (fun a b => decide (cmp a b ≤ 0))
  have hmap := hperm.map (fun v => v.id)
  rw [toArray_map_id hInv] at hmap
  exact (List.Perm.nodup_iff hmap).mpr hInv.1

theorem objGet_sort_elements {list : IdKeyedList} (hInv : Inv list)
    (cmp : PElem → PElem → Int) (k : String) :
    objGet (sort list cmp).elements k = objGet list.elements k := by
  have hnd := sort_se_nodup hInv cmp
  have hperm := List.mergeSort_perm (toArray list) (fun a b => decide (cmp a b ≤ 0))
  apply option_eq_of_some_iff
  intro x
  have hchain : objGet (sort list cmp).elements k
      = ((toArray list).mergeSort
          (fun a b => decide (cmp a b ≤ 0))).reverse.find? (fun v => v.id == k) := by
    rw [show (sort list cmp).elements
        = ((toArray list).mergeSort
            (fun a b => decide (cmp a b ≤ 0))).foldl fromStep [] from rfl,
      foldl_fromStep_objGet, objGet_nil, Option.or_none]
  rw [hchain, find?_reverse_char hnd]
  constructor
  · rintro ⟨hm, hk⟩
    have hta : x ∈ toArray list := hperm.mem_iff.mp hm
    rw [← hk]
    exact objGet_eq_some_of_mem_toArray hInv hta
  · intro h
    obtain ⟨hta, hk⟩ := objGet_some_mem_toArray hInv h
    exact ⟨hperm.mem_iff.mpr hta, hk⟩

theorem toArray_sort {list : IdKeyedList} (hInv : Inv list)
    (cmp : PElem → PElem → Int) :
    toArray (sort list cmp)
      = (toArray list).mergeSort (fun a b => decide (cmp a b ≤ 0)) := by
  have hnd := sort_se_nodup hInv cmp
  show ((sort list cmp).keys).map
      (fun k => (objGet (sort list cmp).elements k).getD undefinedSpread)
    = (toArray list).mergeSort (fun a b => decide (cmp a b ≤ 0))
  rw [show (sort list cmp).keys
      = ((toArray list).mergeSort
          (fun a b => decide (cmp a b ≤ 0))).map (fun x => x.id) from rfl,
    List.map_map]
  have h : ∀ x ∈ (toArray list).mergeSort (fun a b => decide (cmp a b ≤ 0)),
      ((fun k => (objGet (sort list cmp).elements k).getD undefinedSpread) ∘
        (fun x => x.id)) x = x := by
    intro x hx
    have hsome : objGet (sort list cmp).elements x.id = some x := by
      have hchain : objGet (sort list cmp).elements x.id
          = ((toArray list).mergeSort
              (fun a b => decide (cmp a b ≤ 0))).reverse.find?
              (fun v => v.id == x.id) := by
        rw [show (sort list cmp).elements
            = ((toArray list).mergeSort
                (fun a b => decide (cmp a b ≤ 0))).foldl fromStep [] from rfl,
          foldl_fromStep_objGet, objGet_nil, Option.or_none]
      rw [hchain, find?_reverse_char hnd]
      exact ⟨hx, rfl⟩
    simp [Function.comp, hsome]
  rw [List.map_congr_left h]
  simp

/-- **C6**.  `sort` returns a list whose `keys` are the ids of `toArray(list)`
sorted stably by the comparator (for a transitive, total comparator the result
is sorted, and any pair already in comparator order keeps its relative order),
while the `elements` mapping is unchanged in content — every id looks up the
same element as before. -/
theorem sort_spec (list : IdKeyedList) (cmp : PElem → PElem → Int)
    (hInv : Inv list)
    (htrans : ∀ a b c : PElem, cmp a b ≤ 0 → cmp b c ≤ 0 → cmp a c ≤ 0)
    (htotal : ∀ a b : PElem, cmp a b ≤ 0 ∨ cmp b a ≤ 0) :
    (sort list cmp).keys
        = ((toArray list).mergeSort
            (fun a b => decide (cmp a b ≤ 0))).map (fun x => x.id) ∧
    toArray (sort list cmp)
        = (toArray list).mergeSort (fun a b => decide (cmp a b ≤ 0)) ∧
    List.Pairwise (fun a b => cmp a b ≤ 0) (toArray (sort list cmp)) ∧
    (∀ a b : PElem, cmp a b ≤ 0 → [a, b].Sublist (toArray list) →
      [a, b].Sublist (toArray (sort list cmp))) ∧
    (∀ k, objGet (sort list cmp).elements k = objGet list.elements k) := by
  have htransb : ∀ a b c : PElem,
      (fun a b => decide (cmp a b ≤ 0)) a b = true →
      (fun a b => decide (cmp a b ≤ 0)) b c = true →
      (fun a b => decide (cmp a b ≤ 0)) a c = true := by
    intro a b c hab hbc
    simp only [decide_eq_true_eq] at *
    exact htrans a b c hab hbc
  have htotalb : ∀ a b : PElem,
      ((fun a b => decide (cmp a b ≤ 0)) a b
        || (fun a b => decide (cmp a b ≤ 0)) b a) = true := by
    intro a b
    rcases htotal a b with h | h <;> simp [h]
  refine ⟨rfl, toArray_sort hInv cmp, ?_, ?_, objGet_sort_elements hInv cmp⟩
  · rw [toArray_sort hInv cmp]
    have := List.sorted_mergeSort htransb htotalb (toArray list)
    exact this.imp (fun h => by simpa using h)
  · intro a b hab hsub
    rw [toArray_sort hInv cmp]
    exact List.pair_sublist_mergeSort htransb htotalb (by simpa using hab) hsub

/-- **C6**, witness: the everything-ties comparator on a concrete two-element
list (stability makes the order survive unchanged). -/
theorem sort_spec_witness :
    Inv (fromArray [{ id := "1", name := some "A", age := some 1 },
        { id := "2", name := some "B", age := some 2 }]) ∧
    toArray (sort (fromArray [{ id := "1", name := some "A", age := some 1 },
        { id := "2", name := some "B", age := some 2 }])
        (fun _ _ => (0 : Int)))
      = (toArray (fromArray [{ id := "1", name := some "A", age := some 1 },
          { id := "2", name := some "B", age := some 2 }])).mergeSort
          (fun a b => decide ((fun _ _ => (0 : Int)) a b ≤ 0)) ∧
    (∀ k, objGet (sort (fromArray
        [{ id := "1", name := some "A", age := some 1 },
         { id := "2", name := some "B", age := some 2 }])
        (fun _ _ => (0 : Int))).elements k
      = objGet (fromArray [{ id := "1", name := some "A", age := some 1 },
          { id := "2", name := some "B", age := some 2 }]).elements k) :=
  have h := sort_spec (fromArray [{ id := "1", name := some "A", age := some 1 },
      { id := "2", name := some "B", age := some 2 }]) (fun _ _ => (0 : Int))
    (by decide) (fun a b c hab hbc => hab) (fun a b => Or.inl (Int.le_refl 0))
  ⟨by decide, h.2.1, h.2.2.2.2⟩

/-! ### Aliasing (heap-model) results -/

theorem hfold_ge (array : List Nat) (acc : Heap × JsObj Nat) (n : Nat)
    (hn : n ≤ acc.1.next) (hacc : ∀ p ∈ acc.2, n ≤ p.snd) :
    n ≤ (array.foldl hfromStep acc).1.next ∧
      ∀ p ∈ (array.foldl hfromStep acc).2, n ≤ p.snd := by
  induction array generalizing acc with
  | nil => exact ⟨hn, hacc⟩
  | cons a array ih =>
    simp only [List.foldl_cons]
    apply ih
    · show n ≤ acc.1.next + 1
      omega
    · intro p hp
      rcases mem_objGrow hp with h2 | h2
      · exact hacc p h2
      · rw [h2]
        exact hn

/-- The heap for the aliasing scenario: the element object lives at address 0,
the allocation frontier is 1. -/
def aliasHeap : Heap :=
  { mem := fun _ => { id := "a", name := some "A", age := some 1 }, next := 1 }

/-- The empty list with the object at address 0 appended — `append` stores the
reference itself. -/
def aliasList : HKeyedList :=
  happend aliasHeap { keys := [], elements := [] } 0

/-- **C3**, counterexample.  The element at address 0 is passed to `append`;
mutating its `name` field afterwards (`hwrite`) changes what the list returns
for id `"a"`, because `append` stored the caller's object uncopied and
`getById` returns the stored object uncopied — refuting the claimed
decoupling (Invariant I3). -/
theorem aliasing_cex :
    hgetById aliasHeap aliasList "a"
      = some { id := "a", name := some "A", age := some 1 } ∧
    hgetById (hwrite aliasHeap 0 { id := "a", name := some "B", age := some 1 })
        aliasList "a"
      = some { id := "a", name := some "B", age := some 1 } ∧
    hgetById (hwrite aliasHeap 0 { id := "a", name := some "B", age := some 1 })
        aliasList "a"
      ≠ hgetById aliasHeap aliasList "a" :=
  ⟨by decide, by decide, by decide⟩

/-- Decoupling of `hfromArray`: it stores fresh copies of its argument objects,
so mutating any object that existed before the call (any address below the
allocation frontier) never changes what the resulting list returns. -/
theorem fromArray_decoupled (h : Heap) (array : List Nat) (t : Nat)
    (ht : t < h.next) (o : PElem) (i : String) :
    hgetById (hwrite (hfromArray h array).1 t o) (hfromArray h array).2 i
      = hgetById (hfromArray h array).1 (hfromArray h array).2 i := by
  have hge := hfold_ge array (h, []) h.next (Nat.le_refl _)
    (by intro p hp; simp at hp)
  unfold hgetById
  cases hob : objGet (hfromArray h array).2.elements i with
  | none => simp
  | some b =>
    simp only [Option.map_some']
    have hb : h.next ≤ b := by
      have hmem : (i, b) ∈ (hfromArray h array).2.elements :=
        mem_of_objGet_eq_some hob
      exact hge.2 (i, b) hmem
    have hbt : ¬ b = t := by omega
    show some (if b = t then o else (hfromArray h array).1.mem b) = _
    rw [if_neg hbt]

/-- Decoupling of `hupdate` from its patch object: `Object.assign({}, base,
patch)` builds a fresh object, so mutating the patch after the call does not
change what the list returns for the patch's id. -/
theorem hupdate_patch_decoupled (h : Heap) (list : HKeyedList) (a : Nat)
    (ha : a < h.next) (o : PElem) :
    hgetById (hwrite (hupdate h list a).1 a o) (hupdate h list a).2
        ((h.mem a).id)
      = hgetById (hupdate h list a).1 (hupdate h list a).2 ((h.mem a).id) := by
  have hel : (hupdate h list a).2.elements
      = objGrow list.elements ((h.mem a).id) h.next := rfl
  show (objGet (hupdate h list a).2.elements ((h.mem a).id)).map
        (hwrite (hupdate h list a).1 a o).mem
      = (objGet (hupdate h list a).2.elements ((h.mem a).id)).map
        (hupdate h list a).1.mem
  rw [hel, objGet_objGrow_self]
  simp only [Option.map_some']
  have hna : ¬ h.next = a := by omega
  show some (if h.next = a then o else (hupdate h list a).1.mem h.next)
    = some ((hupdate h list a).1.mem h.next)
  rw [if_neg hna]

theorem hgetByIds_fold_ge (list : HKeyedList) (ids : List String)
    (acc : Heap × List Nat) (n : Nat) (hn : n ≤ acc.1.next)
    (hacc : ∀ r ∈ acc.2, n ≤ r) :
    n ≤ (ids.foldl (hgetByIdsStep list) acc).1.next ∧
      ∀ r ∈ (ids.foldl (hgetByIdsStep list) acc).2, n ≤ r := by
  induction ids generalizing acc with
  | nil => exact ⟨hn, hacc⟩
  | cons i ids ih =>
    simp only [List.foldl_cons]
    apply ih
    · unfold hgetByIdsStep
      cases objGet list.elements i with
      | some b =>
        show n ≤ acc.1.next + 1
        omega
      | none => exact hn
    · intro r hr
      unfold hgetByIdsStep at hr
      revert hr
      cases objGet list.elements i with
      | some b =>
        intro hr
        rcases List.mem_append.mp hr with h2 | h2
        · exact hacc r h2
        · rw [List.mem_singleton.mp h2]
          exact hn
      | none =>
        intro hr
        exact hacc r hr

theorem htoArray_fold_ge (list : HKeyedList) (ks : List String)
    (acc : Heap × List Nat) (n : Nat) (hn : n ≤ acc.1.next)
    (hacc : ∀ r ∈ acc.2, n ≤ r) :
    n ≤ (ks.foldl (htoArrayStep list) acc).1.next ∧
      ∀ r ∈ (ks.foldl (htoArrayStep list) acc).2, n ≤ r := by
  induction ks generalizing acc with
  | nil => exact ⟨hn, hacc⟩
  | cons k ks ih =>
    simp only [List.foldl_cons]
    apply ih
    · show n ≤ acc.1.next + 1
      omega
    · intro r hr
      rcases List.mem_append.mp hr with h2 | h2
      · exact hacc r h2
      · rw [List.mem_singleton.mp h2]
        exact hn

/-- Decoupling of the copies returned by `hgetByIds`: they live at fresh
addresses, so mutating a returned copy is never observable through the list. -/
theorem hgetByIds_decoupled (h : Heap) (list : HKeyedList) (ids : List String)
    (hlist : ∀ p ∈ list.elements, p.snd < h.next) {r : Nat}
    (hr : r ∈ (hgetByIds h list ids).2) (o : PElem) (i : String) :
    hgetById (hwrite (hgetByIds h list ids).1 r o) list i
      = hgetById (hgetByIds h list ids).1 list i := by
  have hge := hgetByIds_fold_ge list ids (h, []) h.next (Nat.le_refl _)
    (by intro r2 hr2; simp at hr2)
  have hrn : h.next ≤ r := hge.2 r hr
  unfold hgetById
  cases hob : objGet list.elements i with
  | none => simp
  | some b =>
    simp only [Option.map_some']
    have hb : b < h.next := hlist (i, b) (mem_of_objGet_eq_some hob)
    have hbr : ¬ b = r := by omega
    show some (if b = r then o else (hgetByIds h list ids).1.mem b)
      = some ((hgetByIds h list ids).1.mem b)
    rw [if_neg hbr]

/-- Decoupling of the copies returned by `htoArray`: they live at fresh
addresses, so mutating a returned copy is never observable through the list. -/
theorem htoArray_decoupled (h : Heap) (list : HKeyedList)
    (hlist : ∀ p ∈ list.elements, p.snd < h.next) {r : Nat}
    (hr : r ∈ (htoArray h list).2) (o : PElem) (i : String) :
    hgetById (hwrite (htoArray h list).1 r o) list i
      = hgetById (htoArray h list).1 list i := by
  have hge := htoArray_fold_ge list list.keys (h, []) h.next (Nat.le_refl _)
    (by intro r2 hr2; simp at hr2)
  have hrn : h.next ≤ r := hge.2 r hr
  unfold hgetById
  cases hob : objGet list.elements i with
  | none => simp
  | some b =>
    simp only [Option.map_some']
    have hb : b < h.next := hlist (i, b) (mem_of_objGet_eq_some hob)
    have hbr : ¬ b = r := by omega
    show some (if b = r then o else (htoArray h list).1.mem b)
      = some ((htoArray h list).1.mem b)
    rw [if_neg hbr]

/-- **C3**, amended.  Exactly the copy-making operations decouple: elements
passed to `fromArray` and patches passed to `update` are stored as freshly
allocated objects, and `getByIds`/`toArray` return freshly allocated copies, so
mutating a passed-in object after those calls — or mutating a returned copy —
never changes what the list subsequently returns.  By contrast `append` and
`insert` store the caller's object by reference and
`getById`/`getFirst`/`getLast`/`getByIndex` return the stored object by
reference, so those mutations ARE observable (the counterexample). -/
theorem copy_decoupling (h : Heap) (list : HKeyedList) (array : List Nat)
    (ids : List String) (t a r : Nat) (o : PElem) (i : String) :
    (t < h.next →
      hgetById (hwrite (hfromArray h array).1 t o) (hfromArray h array).2 i
        = hgetById (hfromArray h array).1 (hfromArray h array).2 i) ∧
    (a < h.next →
      hgetById (hwrite (hupdate h list a).1 a o) (hupdate h list a).2
          ((h.mem a).id)
        = hgetById (hupdate h list a).1 (hupdate h list a).2 ((h.mem a).id)) ∧
    ((∀ p ∈ list.elements, p.snd < h.next) → r ∈ (hgetByIds h list ids).2 →
      hgetById (hwrite (hgetByIds h list ids).1 r o) list i
        = hgetById (hgetByIds h list ids).1 list i) ∧
    ((∀ p ∈ list.elements, p.snd < h.next) → r ∈ (htoArray h list).2 →
      hgetById (hwrite (htoArray h list).1 r o) list i
        = hgetById (htoArray h list).1 list i) :=
  ⟨fun ht => fromArray_decoupled h array t ht o i,
   fun ha => hupdate_patch_decoupled h list a ha o,
   fun hl hr => hgetByIds_decoupled h list ids hl hr o i,
   fun hl hr => htoArray_decoupled h list hl hr o i⟩

/-- **C3**, witness for the amended theorem: with the element object at address
0 and the list from the counterexample scenario, mutating address 0 after
`hfromArray` copied it, mutating the patch after `hupdate` merged it, and
mutating the copy (at fresh address 1) returned by `hgetByIds` or `htoArray`
all leave the lookups unchanged. -/
theorem copy_decoupling_witness :
    0 < aliasHeap.next ∧
    (∀ p ∈ aliasList.elements, p.snd < aliasHeap.next) ∧
    1 ∈ (hgetByIds aliasHeap aliasList ["a"]).2 ∧
    1 ∈ (htoArray aliasHeap aliasList).2 ∧
    hgetById (hwrite (hfromArray aliasHeap [0]).1 0
        { id := "a", name := some "B", age := some 1 })
        (hfromArray aliasHeap [0]).2 "a"
      = hgetById (hfromArray aliasHeap [0]).1 (hfromArray aliasHeap [0]).2
          "a" ∧
    hgetById (hwrite (hupdate aliasHeap aliasList 0).1 0
        { id := "a", name := some "B", age := some 1 })
        (hupdate aliasHeap aliasList 0).2 ((aliasHeap.mem 0).id)
      = hgetById (hupdate aliasHeap aliasList 0).1
          (hupdate aliasHeap aliasList 0).2 ((aliasHeap.mem 0).id) ∧
    hgetById (hwrite (hgetByIds aliasHeap aliasList ["a"]).1 1
        { id := "a", name := some "B", age := some 1 }) aliasList "a"
      = hgetById (hgetByIds aliasHeap aliasList ["a"]).1 aliasList "a" ∧
    hgetById (hwrite (htoArray aliasHeap aliasList).1 1
        { id := "a", name := some "B", age := some 1 }) aliasList "a"
      = hgetById (htoArray aliasHeap aliasList).1 aliasList "a" :=
  have hthm := copy_decoupling aliasHeap aliasList [0] ["a"] 0 0 1
    { id := "a", name := some "B", age := some 1 } "a"
  ⟨by decide, by decide, by decide, by decide,
   hthm.1 (by decide),
   hthm.2.1 (by decide),
   hthm.2.2.1 (by decide) (by decide),
   hthm.2.2.2 (by decide) (by decide)⟩

end KeyedList
